import Mathlib

/-!
Verification of the version-resolution engine of mc-dropper
(src/parser.rs and src/backend.rs), as a shallow embedding in Lean.

Strings are modelled as `List Char` (ASCII inputs).  Rust panics are
modelled by the `Run.panic` outcome, recoverable errors by `Run.err`.
The regex `VERSION_CODE_REGEX = (\d+)\.(\*|\d+)?\.?(\*|\d+)?\.?(\*|\d+)?`
is modelled directly: the Rust regex crate uses leftmost matching, and
since everything after `(\d+)\.` is optional, a greedy no-backtracking
reading is exact.
-/

namespace Dropper

abbrev LC := List Char

/-- Error kinds that abort an extraction: the code's
`ErrorKind::BadVersioningFormat` and a `u32` parse failure
(`ParseIntError`, raised by `?` on `parse::<u32>()`). -/
inductive RunE where
  | badVersioningFormat : RunE
  | parseIntError : RunE
deriving DecidableEq, Repr

/-- Outcome of running a fallible piece of Rust: normal return,
propagated error, or panic (`unwrap` on `None`, out-of-range `Vec`
indexing). -/
inductive Run (α : Type) where
  | ok : α → Run α
  | err : RunE → Run α
  | panic : Run α
deriving DecidableEq, Repr

def Run.bind {α β : Type} : Run α → (α → Run β) → Run β
  | .ok a, f => f a
  | .err e, _ => .err e
  | .panic, _ => .panic

def Run.mapM {α β : Type} (f : α → Run β) : List α → Run (List β)
  | [] => .ok []
  | x :: xs => (f x).bind fun y => (Run.mapM f xs).bind fun ys => .ok (y :: ys)

/-- The version tuples built by `extract_version_numbers`:
`(u32, u32, Option<u32>, Option<u32>)`. -/
abbrev VTuple := Nat × Nat × Option Nat × Option Nat

instance instDecEqVTuple : DecidableEq VTuple := inferInstance

/-! ## The regex model: `(\d+)\.(\*|\d+)?\.?(\*|\d+)?\.?(\*|\d+)?` -/

def takeDigits (s : LC) : LC := s.takeWhile (fun c => c.isDigit)

def dropDigits (s : LC) : LC := s.dropWhile (fun c => c.isDigit)

/-- One optional subgroup `(\*|\d+)?`: a literal star, else a maximal
digit run, else nothing.  Returns the capture and the rest. -/
def matchOptGroup (s : LC) : Option LC × LC :=
  if s.head? = some '*' then (some ['*'], s.tail)
  else if takeDigits s = [] then (none, s)
  else (some (takeDigits s), dropDigits s)

/-- One optional `\.?`: returns the consumed text and the rest. -/
def matchOptDot (s : LC) : LC × LC :=
  match s with
  | '.' :: cs => (['.'], cs)
  | _ => ([], s)

/-- The four capture groups of one `VERSION_CODE_REGEX` match
(group 1 is never empty). -/
structure RegexGroups where
  g1 : LC
  g2 : Option LC
  g3 : Option LC
  g4 : Option LC
deriving DecidableEq, Repr

/-- One regex match: its groups, the whole matched text (`groups[0]`)
and the remaining input after the match. -/
structure MatchRes where
  groups : RegexGroups
  text : LC
  rest : LC
deriving DecidableEq, Repr

/-- Try to match `VERSION_CODE_REGEX` at the start of `s`. -/
def matchAt (s : LC) : Option MatchRes :=
  if takeDigits s = [] then none
  else
    match dropDigits s with
    | '.' :: r2 =>
      let p2 := matchOptGroup r2
      let q1 := matchOptDot p2.2
      let p3 := matchOptGroup q1.2
      let q2 := matchOptDot p3.2
      let p4 := matchOptGroup q2.2
      some ⟨⟨takeDigits s, p2.1, p3.1, p4.1⟩,
            takeDigits s ++ '.' :: (p2.1.getD [] ++ q1.1 ++ p3.1.getD [] ++ q2.1 ++ p4.1.getD []),
            p4.2⟩
    | _ => none

theorem matchOptGroup_rest_le (s : LC) : (matchOptGroup s).2.length ≤ s.length := by
  unfold matchOptGroup
  split
  · cases s <;> simp_all
  · split
    · simp
    · simpa [dropDigits] using (s.dropWhile_sublist (fun c => c.isDigit)).length_le

theorem matchOptDot_rest_le (s : LC) : (matchOptDot s).2.length ≤ s.length := by
  unfold matchOptDot
  split <;> simp

theorem matchAt_rest_lt {s : LC} {m : MatchRes} (h : matchAt s = some m) :
    m.rest.length < s.length := by
  unfold matchAt at h
  split at h
  · exact absurd h (by simp)
  · rename_i hd
    split at h
    · rename_i r2 hdrop
      simp only [Option.some.injEq] at h
      have h1 : m.rest = (matchOptGroup ((matchOptDot ((matchOptGroup ((matchOptDot ((matchOptGroup r2).2)).2)).2)).2)).2 := by
        rw [← h]
      have hle : m.rest.length ≤ r2.length := by
        rw [h1]
        calc ((matchOptGroup ((matchOptDot ((matchOptGroup ((matchOptDot ((matchOptGroup r2).2)).2)).2)).2)).2).length
            ≤ ((matchOptDot ((matchOptGroup ((matchOptDot ((matchOptGroup r2).2)).2)).2)).2).length :=
              matchOptGroup_rest_le _
          _ ≤ ((matchOptGroup ((matchOptDot ((matchOptGroup r2).2)).2)).2).length := matchOptDot_rest_le _
          _ ≤ ((matchOptDot ((matchOptGroup r2).2)).2).length := matchOptGroup_rest_le _
          _ ≤ ((matchOptGroup r2).2).length := matchOptDot_rest_le _
          _ ≤ r2.length := matchOptGroup_rest_le _
      have hsplit : s.length = (takeDigits s).length + (dropDigits s).length := by
        have h2 := congrArg List.length (s.takeWhile_append_dropWhile (p := fun c => c.isDigit))
        simp only [List.length_append] at h2
        simp [takeDigits, dropDigits]
        omega
      have hpos : 0 < (takeDigits s).length := List.length_pos.mpr hd
      have : (dropDigits s).length = r2.length + 1 := by rw [hdrop]; simp
      omega
    · exact absurd h (by simp)

/-- Fuel-driven scan loop.  Each step either consumes a whole match
(at least two characters, by `matchAt_rest_lt`) or advances one
character, so the remaining input shrinks strictly and a fuel equal to
the input length never runs out (`scanGo_fuel_irrelevant`). -/
def scanGo (fuel : Nat) (s : LC) : List (RegexGroups × LC) :=
  match fuel with
  | 0 => []
  | fuel + 1 =>
    match s with
    | [] => []
    | c :: cs =>
      match matchAt (c :: cs) with
      | some m => (m.groups, m.text) :: scanGo fuel m.rest
      | none => scanGo fuel cs

/-- `Regex::captures_iter`: successive non-overlapping leftmost
matches; on failure the scan advances one character. -/
def scanCaptures (s : LC) : List (RegexGroups × LC) := scanGo s.length s

theorem scanGo_nil (fuel : Nat) : scanGo fuel [] = [] := by
  cases fuel <;> rfl

theorem scanGo_fuel_irrelevant :
    ∀ (fuel₁ fuel₂ : Nat) (s : LC), s.length ≤ fuel₁ → s.length ≤ fuel₂ →
      scanGo fuel₁ s = scanGo fuel₂ s := by
  intro fuel₁
  induction fuel₁ with
  | zero =>
    intro fuel₂ s hs₁ _
    have : s = [] := List.eq_nil_of_length_eq_zero (by omega)
    subst this
    rw [scanGo_nil, scanGo_nil]
  | succ f₁ ih =>
    intro fuel₂ s hs₁ hs₂
    cases s with
    | nil => rw [scanGo_nil, scanGo_nil]
    | cons c cs =>
      cases fuel₂ with
      | zero => simp at hs₂
      | succ f₂ =>
        rw [scanGo, scanGo]
        cases hm : matchAt (c :: cs) with
        | some m =>
          have hlt := matchAt_rest_lt hm
          simp only [List.length_cons] at hs₁ hs₂ hlt
          show (m.groups, m.text) :: scanGo f₁ m.rest = (m.groups, m.text) :: scanGo f₂ m.rest
          rw [ih f₂ m.rest (by omega) (by omega)]
        | none =>
          simp only [List.length_cons] at hs₁ hs₂
          show scanGo f₁ cs = scanGo f₂ cs
          exact ih f₂ cs (by omega) (by omega)

/-! ## Parsing captured groups into tuples (`extract_version_numbers`, first loop) -/

def digitVal (c : Char) : Nat := c.toNat - 48

def digitsToNat (s : LC) : Nat := s.foldl (fun acc c => acc * 10 + digitVal c) 0

/-- Rust `str::parse::<u32>()` on a captured group: fails on a star,
on emptiness, and on overflow past `u32::MAX`. -/
def parseU32 (s : LC) : Run Nat :=
  if s ≠ [] ∧ (∀ c ∈ s, c.isDigit) ∧ digitsToNat s < 4294967296 then .ok (digitsToNat s)
  else .err .parseIntError

def optParse : Option LC → Run (Option Nat)
  | none => .ok none
  | some s => (parseU32 s).bind fun n => .ok (some n)

/-- One iteration of the first loop of `extract_version_numbers`:
`match (groups.get(1), groups.get(2))`; group 1 always captures, so a
missing group 2 raises `BadVersioningFormat`, and each present group is
parsed as `u32`. -/
def tupleOfGroups (g : RegexGroups) : Run VTuple :=
  match g.g2 with
  | none => .err .badVersioningFormat
  | some b =>
    (parseU32 g.g1).bind fun a =>
    (parseU32 b).bind fun bv =>
    (optParse g.g3).bind fun c =>
    (optParse g.g4).bind fun d => .ok (a, bv, c, d)

/-- All candidate version tuples of one release label, in match order. -/
def labelCandidates (label : LC) : Run (List VTuple) :=
  Run.mapM (fun gc => tupleOfGroups gc.1) (scanCaptures label)

/-! ## `stringify_version_tuple` -/

/-- Fuel-driven decimal printing loop.  The recursion depth is the
number of digits, which never exceeds the starting fuel `n` used by
`natDigits`, so the fuel-exhausted branch (which would print the last
digit) is unreachable. -/
def natDigitsGo (fuel n : Nat) (acc : LC) : LC :=
  match fuel with
  | 0 => Char.ofNat (48 + n % 10) :: acc
  | fuel + 1 =>
    if n < 10 then Char.ofNat (48 + n) :: acc
    else natDigitsGo fuel (n / 10) (Char.ofNat (48 + n % 10) :: acc)

/-- Rust `format!("{}", n)` for an unsigned integer: decimal digits. -/
def natDigits (n : Nat) : LC := natDigitsGo n n []

/-- `BukkitHTMLPluginParser::stringify_version_tuple`: dot-join the
present fields; a beta suffix is appended after `b` (all call sites
pass `None`). -/
def stringify_version_tuple (tup : VTuple) (beta : Option LC) : LC :=
  natDigits tup.1 ++ '.' :: natDigits tup.2.1 ++
  (match tup.2.2.1 with | some num => '.' :: natDigits num | none => []) ++
  (match tup.2.2.2 with | some num => '.' :: natDigits num | none => []) ++
  (match beta with | some num => 'b' :: num | none => [])

/-! ## `extract_version_numbers`, heuristic part -/

/-- `version_tuples.iter().fold(0, |acc, x| max(acc, x.len()))`. -/
def max_len (version_tuples : List (List VTuple)) : Nat :=
  version_tuples.foldl (fun acc x => Nat.max acc x.length) 0

/-- Inner loop of the scoring pass for column `i`: `prev` starts from
the first label's column-`i` entry and is updated only when the current
label has column `i`. -/
def scoreColGo (i : Nat) : VTuple → List (List VTuple) → Nat
  | _, [] => 0
  | prev, tuples :: more =>
    match tuples[i]? with
    | none => 1 + scoreColGo i prev more
    | some v => (if v = prev then 1 else 0) + scoreColGo i v more

/-- The `similar_streaks` vector: for each column `i` in
`0..max_len`, `version_iter.next().unwrap()[i]` (panicking when the
first label is short) seeds `prev`, then the inner loop counts. -/
def similarStreaksRun (version_tuples : List (List VTuple)) : Run (List Nat) :=
  match version_tuples with
  | [] => .panic
  | first :: rest =>
    Run.mapM (fun i =>
      match first[i]? with
      | none => Run.panic
      | some prev0 => .ok (scoreColGo i prev0 rest)) (List.range (max_len version_tuples))

/-- The fold inside `min_by`: the accumulator `(best_idx, best_val)` is
replaced only when strictly greater than the current value, so the
first minimum wins. -/
def minByFold : Nat × Nat → Nat → List Nat → Nat × Nat
  | best, _, [] => best
  | (bi, bv), idx, v :: vs =>
    if bv > v then minByFold (idx, v) (idx + 1) vs else minByFold (bi, bv) (idx + 1) vs

/-- `similar_streaks.iter().enumerate().min_by(|(_, a), (_, b)| a.cmp(b))`,
keeping only the index. -/
def minByIdx : List Nat → Option Nat
  | [] => none
  | v :: vs => some (minByFold (0, v) 1 vs).1

/-- `BukkitHTMLPluginParser::extract_version_numbers`.  Trivial case:
every label yielded exactly one candidate.  Otherwise score columns,
pick the least-similar one with `min_by` (`unwrap` panics on an empty
vector), and stringify each label's entry at that column (`x[col]`
panics when out of range). -/
def extract_version_numbers (version_list : List LC) : Run (List LC) :=
  (Run.mapM labelCandidates version_list).bind fun version_tuples =>
  if version_tuples.all (fun x => x.length == 1) then
    .ok (version_tuples.map (fun x => stringify_version_tuple (x.headD (0, 0, none, none)) none))
  else
    (similarStreaksRun version_tuples).bind fun streaks =>
    match minByIdx streaks with
    | none => .panic
    | some col =>
      Run.mapM (fun x =>
        match x[col]? with
        | none => Run.panic
        | some t => .ok (stringify_version_tuple t none)) version_tuples

/-! ## `fetch` and `find_newest_version` -/

/-- One step of building `names_to_links: HashMap<String, String>`:
inserting a key replaces any previous binding. -/
def hmInsert (m : List (LC × LC)) (kv : LC × LC) : List (LC × LC) :=
  m.filter (fun e => !(e.1 == kv.1)) ++ [kv]

/-- The contents of `names_to_links` after inserting all
`(name, link)` pairs in order: one entry per distinct name, carrying
the link of that name's last occurrence.  Iteration order of the
`HashMap` is arbitrary, so consumers are quantified over permutations
of this list. -/
def dedupLast (pairs : List (LC × LC)) : List (LC × LC) :=
  pairs.foldl hmInsert []

/-- The inner loop of `fetch`: does any capture of this name have
`groups[0]` equal to the requested version code? -/
def nameHasCode (version_code name : LC) : Bool :=
  (scanCaptures name).any (fun gc => gc.2 == version_code)

/-- The outer loop of `fetch`, iterating the `HashMap` in the order
given by `order`: return the first link whose name contains a capture
equal to `version_code`, else `None`. -/
def fetchWithOrder (order : List (LC × LC)) (version_code : LC) : Option LC :=
  (order.find? (fun e => nameHasCode version_code e.1)).map Prod.snd

/-- `find_newest_version`, after `enumerate_versions` returned the two
parallel lists: `versions.first().cloned().unwrap()` then
`links.first().cloned().unwrap()` — each `unwrap` panics on an empty
list. -/
def find_newest_version (versions links : List LC) : Run (LC × LC) :=
  match versions.head? with
  | none => .panic
  | some v =>
    match links.head? with
    | none => .panic
    | some l => .ok (v, l)

/-! ## `parse_package_specifier` -/

/-- Rust `\w` on ASCII input: letters, digits, underscore. -/
def isWordChar (c : Char) : Bool := c.isAlphanum || c == '_'

/-- `^\w+$` on the name half. -/
def nameReMatch (s : LC) : Bool := !s.isEmpty && s.all isWordChar

/-- Unanchored `Regex::is_match` of `VERSION_CODE_REGEX`. -/
def versionReIsMatch (s : LC) : Bool := !(scanCaptures s).isEmpty

/-- Rust `str::split(char)`, keeping empty segments. -/
def rustSplitAux (sep : Char) : LC → LC → List LC
  | cur, [] => [cur.reverse]
  | cur, c :: cs =>
    if c = sep then cur.reverse :: rustSplitAux sep [] cs
    else rustSplitAux sep (c :: cur) cs

def rustSplit (sep : Char) (s : LC) : List LC := rustSplitAux sep [] s

inductive SpecParse where
  | ok : LC → Option LC → SpecParse
  | invalid : SpecParse
deriving DecidableEq, Repr

/-- `PackageBackend::parse_package_specifier`: split on `@` when
present (exactly two components required), validate the name against
`^\w+$` and the version half against the unanchored
`VERSION_CODE_REGEX`; without `@` the whole string must be a word and
no version is returned. -/
def parse_package_specifier (pkg_specifier : LC) : SpecParse :=
  if pkg_specifier.any (fun c => c == '@') then
    match rustSplit '@' pkg_specifier with
    | [c0, c1] =>
      if !nameReMatch c0 then .invalid
      else if !versionReIsMatch c1 then .invalid
      else .ok c0 (some c1)
    | _ => .invalid
  else
    if nameReMatch pkg_specifier then .ok pkg_specifier none else .invalid

/-! ## Helper lemmas about `Run.mapM` -/

theorem Run.mapM_ok_length {α β : Type} {f : α → Run β} :
    ∀ {l : List α} {ys : List β}, Run.mapM f l = .ok ys → ys.length = l.length := by
  intro l
  induction l with
  | nil => intro ys h; simp [Run.mapM] at h; simp [← h]
  | cons x xs ih =>
    intro ys h
    simp only [Run.mapM] at h
    cases hfx : f x with
    | ok y =>
      rw [hfx] at h
      cases hrest : Run.mapM f xs with
      | ok ys' =>
        rw [hrest] at h
        simp [Run.bind] at h
        subst h
        simp [ih hrest]
      | err e => rw [hrest] at h; simp [Run.bind] at h
      | panic => rw [hrest] at h; simp [Run.bind] at h
    | err e => rw [hfx] at h; simp [Run.bind] at h
    | panic => rw [hfx] at h; simp [Run.bind] at h

theorem Run.mapM_ok_forall {α β : Type} {f : α → Run β} :
    ∀ {l : List α} {ys : List β}, Run.mapM f l = .ok ys → ∀ y ∈ ys, ∃ x ∈ l, f x = .ok y := by
  intro l
  induction l with
  | nil =>
    intro ys h
    simp [Run.mapM] at h
    subst h
    intro y hy
    simp at hy
  | cons x xs ih =>
    intro ys h
    simp only [Run.mapM] at h
    cases hfx : f x with
    | ok y =>
      rw [hfx] at h
      cases hrest : Run.mapM f xs with
      | ok ys' =>
        rw [hrest] at h
        simp [Run.bind] at h
        subst h
        intro z hz
        rcases List.mem_cons.mp hz with hz | hz
        · exact ⟨x, by simp, by rw [hfx, hz]⟩
        · obtain ⟨x', hx', hfx'⟩ := ih hrest z hz
          exact ⟨x', by simp [hx'], hfx'⟩
      | err e => rw [hrest] at h; simp [Run.bind] at h
      | panic => rw [hrest] at h; simp [Run.bind] at h
    | err e => rw [hfx] at h; simp [Run.bind] at h
    | panic => rw [hfx] at h; simp [Run.bind] at h

theorem Run.mapM_ok_of_forall {α β : Type} {f : α → Run β} {g : α → β} :
    ∀ {l : List α}, (∀ x ∈ l, f x = .ok (g x)) → Run.mapM f l = .ok (l.map g) := by
  intro l
  induction l with
  | nil => intro _; simp [Run.mapM]
  | cons x xs ih =>
    intro h
    simp only [Run.mapM]
    rw [h x (by simp), ih (fun x hx => h x (by simp [hx]))]
    simp [Run.bind]

/-! ## Digit strings and canonical version strings -/

theorem charDigit_isDigit {k : Nat} (hk : k < 10) : (Char.ofNat (48 + k)).isDigit = true := by
  interval_cases k <;> decide

theorem natDigitsGo_ne_nil : ∀ (fuel n : Nat) (acc : LC), natDigitsGo fuel n acc ≠ [] := by
  intro fuel
  induction fuel with
  | zero => intro n acc; simp [natDigitsGo]
  | succ f ih =>
    intro n acc
    rw [natDigitsGo]
    split
    · simp
    · exact ih (n / 10) _

theorem natDigits_ne_nil (n : Nat) : natDigits n ≠ [] := natDigitsGo_ne_nil n n []

theorem natDigitsGo_all_digit :
    ∀ (fuel n : Nat) (acc : LC), (∀ c ∈ acc, c.isDigit = true) →
      ∀ c ∈ natDigitsGo fuel n acc, c.isDigit = true := by
  intro fuel
  induction fuel with
  | zero =>
    intro n acc hacc c hc
    simp only [natDigitsGo] at hc
    rcases List.mem_cons.mp hc with hc | hc
    · subst hc; exact charDigit_isDigit (Nat.mod_lt _ (by omega))
    · exact hacc c hc
  | succ f ih =>
    intro n acc hacc c hc
    rw [natDigitsGo] at hc
    split at hc
    · rename_i h
      rcases List.mem_cons.mp hc with hc | hc
      · subst hc; exact charDigit_isDigit h
      · exact hacc c hc
    · refine ih (n / 10) _ ?_ c hc
      intro x hx
      rcases List.mem_cons.mp hx with hx | hx
      · subst hx; exact charDigit_isDigit (Nat.mod_lt _ (by omega))
      · exact hacc x hx

theorem natDigits_all_digit (n : Nat) : ∀ c ∈ natDigits n, c.isDigit = true :=
  natDigitsGo_all_digit n n [] (by intro c hc; simp at hc)

theorem takeDrop_digits_append {d r : LC} (hd : ∀ c ∈ d, c.isDigit = true)
    (hr : ∀ c, r.head? = some c → c.isDigit = false) :
    takeDigits (d ++ r) = d ∧ dropDigits (d ++ r) = r := by
  induction d with
  | nil =>
    cases r with
    | nil => simp [takeDigits, dropDigits]
    | cons c cs =>
      have := hr c rfl
      simp [takeDigits, dropDigits, this]
  | cons c cs ih =>
    have hc : c.isDigit = true := hd c (by simp)
    have ih' := ih (fun x hx => hd x (by simp [hx]))
    simp only [takeDigits, dropDigits, List.cons_append, List.takeWhile_cons, List.dropWhile_cons,
      hc] at *
    simp [ih'.1, ih'.2]

theorem matchOptGroup_digits {d r : LC} (hne : d ≠ []) (hd : ∀ c ∈ d, c.isDigit = true)
    (hr : ∀ c, r.head? = some c → c.isDigit = false) :
    matchOptGroup (d ++ r) = (some d, r) := by
  obtain ⟨c0, d', rfl⟩ := List.exists_cons_of_ne_nil hne
  have hc0 : c0.isDigit = true := hd c0 (by simp)
  have htd := takeDrop_digits_append hd hr
  unfold matchOptGroup
  rw [if_neg, if_neg]
  · rw [htd.1, htd.2]
  · rw [htd.1]
    simp
  · simp only [List.cons_append, List.head?_cons, Option.some.injEq]
    intro hstar
    subst hstar
    simp at hc0

theorem matchOptGroup_nil : matchOptGroup [] = (none, []) := by
  simp [matchOptGroup, takeDigits]

theorem matchOptDot_cons_dot (x : LC) : matchOptDot ('.' :: x) = (['.'], x) := rfl

theorem matchOptDot_nil : matchOptDot [] = ([], []) := rfl

/-- Dot-joined list of runs, as built by `stringify_version_tuple`. -/
def dotJoined : List LC → LC
  | [] => []
  | [r] => r
  | r :: r2 :: rs => r ++ '.' :: dotJoined (r2 :: rs)

/-- Every run of a canonical string is a nonempty digit run. -/
def GoodRuns (runs : List LC) : Prop := ∀ r ∈ runs, r ≠ [] ∧ ∀ c ∈ r, c.isDigit = true

theorem dotJoined_head_not_digit {x : LC} :
    ∀ c, (('.' :: x) : LC).head? = some c → c.isDigit = false := by
  intro c hc
  simp at hc
  subst hc
  decide

theorem matchAt_canonical2 {r1 r2 : LC} (h1 : r1 ≠ []) (hd1 : ∀ c ∈ r1, c.isDigit = true)
    (h2 : r2 ≠ []) (hd2 : ∀ c ∈ r2, c.isDigit = true) :
    matchAt (r1 ++ '.' :: r2) = some ⟨⟨r1, some r2, none, none⟩, r1 ++ '.' :: r2, []⟩ := by
  have htd := takeDrop_digits_append hd1 (dotJoined_head_not_digit (x := r2))
  have hg2 : matchOptGroup r2 = (some r2, []) := by
    have := matchOptGroup_digits (d := r2) (r := []) h2 hd2 (by intro c hc; simp at hc)
    simpa using this
  unfold matchAt
  rw [htd.1, htd.2, if_neg h1]
  simp [hg2, matchOptDot_nil, matchOptGroup_nil]

theorem matchAt_canonical3 {r1 r2 r3 : LC} (h1 : r1 ≠ []) (hd1 : ∀ c ∈ r1, c.isDigit = true)
    (h2 : r2 ≠ []) (hd2 : ∀ c ∈ r2, c.isDigit = true)
    (h3 : r3 ≠ []) (hd3 : ∀ c ∈ r3, c.isDigit = true) :
    matchAt (r1 ++ '.' :: (r2 ++ '.' :: r3)) =
      some ⟨⟨r1, some r2, some r3, none⟩, r1 ++ '.' :: (r2 ++ '.' :: r3), []⟩ := by
  have htd := takeDrop_digits_append hd1 (dotJoined_head_not_digit (x := r2 ++ '.' :: r3))
  have hg2 : matchOptGroup (r2 ++ '.' :: r3) = (some r2, '.' :: r3) :=
    matchOptGroup_digits h2 hd2 (dotJoined_head_not_digit (x := r3))
  have hg3 : matchOptGroup r3 = (some r3, []) := by
    have := matchOptGroup_digits (d := r3) (r := []) h3 hd3 (by intro c hc; simp at hc)
    simpa using this
  unfold matchAt
  rw [htd.1, htd.2, if_neg h1]
  simp [hg2, hg3, matchOptDot_cons_dot, matchOptDot_nil, matchOptGroup_nil]

theorem matchAt_canonical4 {r1 r2 r3 r4 : LC} (h1 : r1 ≠ []) (hd1 : ∀ c ∈ r1, c.isDigit = true)
    (h2 : r2 ≠ []) (hd2 : ∀ c ∈ r2, c.isDigit = true)
    (h3 : r3 ≠ []) (hd3 : ∀ c ∈ r3, c.isDigit = true)
    (h4 : r4 ≠ []) (hd4 : ∀ c ∈ r4, c.isDigit = true) :
    matchAt (r1 ++ '.' :: (r2 ++ '.' :: (r3 ++ '.' :: r4))) =
      some ⟨⟨r1, some r2, some r3, some r4⟩, r1 ++ '.' :: (r2 ++ '.' :: (r3 ++ '.' :: r4)), []⟩ := by
  have htd := takeDrop_digits_append hd1
    (dotJoined_head_not_digit (x := r2 ++ '.' :: (r3 ++ '.' :: r4)))
  have hg2 : matchOptGroup (r2 ++ '.' :: (r3 ++ '.' :: r4)) =
      (some r2, '.' :: (r3 ++ '.' :: r4)) :=
    matchOptGroup_digits h2 hd2 (dotJoined_head_not_digit (x := r3 ++ '.' :: r4))
  have hg3 : matchOptGroup (r3 ++ '.' :: r4) = (some r3, '.' :: r4) :=
    matchOptGroup_digits h3 hd3 (dotJoined_head_not_digit (x := r4))
  have hg4 : matchOptGroup r4 = (some r4, []) := by
    have := matchOptGroup_digits (d := r4) (r := []) h4 hd4 (by intro c hc; simp at hc)
    simpa using this
  unfold matchAt
  rw [htd.1, htd.2, if_neg h1]
  simp [hg2, hg3, hg4, matchOptDot_cons_dot, matchOptDot_nil, matchOptGroup_nil]

theorem scanCaptures_single {s : LC} {g : RegexGroups} (hne : s ≠ [])
    (hm : matchAt s = some ⟨g, s, []⟩) : scanCaptures s = [(g, s)] := by
  obtain ⟨c, cs, rfl⟩ := List.exists_cons_of_ne_nil hne
  unfold scanCaptures
  rw [List.length_cons, scanGo, hm]
  simp [scanGo_nil]

/-- Every canonical string produced by `stringify_version_tuple` (with
no beta suffix) has exactly one regex capture: the whole string. -/
theorem stringify_scan (t : VTuple) :
    ∃ g, scanCaptures (stringify_version_tuple t none) = [(g, stringify_version_tuple t none)] := by
  obtain ⟨a, b, c, d⟩ := t
  have hsa := natDigits_ne_nil a
  have hsb := natDigits_ne_nil b
  have hda := natDigits_all_digit a
  have hdb := natDigits_all_digit b
  have hne : ∀ (x : LC), natDigits a ++ '.' :: x ≠ [] := by
    intro x h
    exact hsa (List.append_eq_nil.mp h).1
  cases c with
  | none =>
    cases d with
    | none =>
      have hshape : stringify_version_tuple (a, b, none, none) none =
          natDigits a ++ '.' :: natDigits b := by
        simp [stringify_version_tuple]
      rw [hshape]
      exact ⟨_, scanCaptures_single (hne _) (matchAt_canonical2 hsa hda hsb hdb)⟩
    | some dv =>
      have hshape : stringify_version_tuple (a, b, none, some dv) none =
          natDigits a ++ '.' :: (natDigits b ++ '.' :: natDigits dv) := by
        simp [stringify_version_tuple]
      rw [hshape]
      exact ⟨_, scanCaptures_single (hne _)
        (matchAt_canonical3 hsa hda hsb hdb (natDigits_ne_nil dv) (natDigits_all_digit dv))⟩
  | some cv =>
    cases d with
    | none =>
      have hshape : stringify_version_tuple (a, b, some cv, none) none =
          natDigits a ++ '.' :: (natDigits b ++ '.' :: natDigits cv) := by
        simp [stringify_version_tuple]
      rw [hshape]
      exact ⟨_, scanCaptures_single (hne _)
        (matchAt_canonical3 hsa hda hsb hdb (natDigits_ne_nil cv) (natDigits_all_digit cv))⟩
    | some dv =>
      have hshape : stringify_version_tuple (a, b, some cv, some dv) none =
          natDigits a ++ '.' :: (natDigits b ++ '.' :: (natDigits cv ++ '.' :: natDigits dv)) := by
        simp [stringify_version_tuple]
      rw [hshape]
      exact ⟨_, scanCaptures_single (hne _)
        (matchAt_canonical4 hsa hda hsb hdb (natDigits_ne_nil cv) (natDigits_all_digit cv)
          (natDigits_ne_nil dv) (natDigits_all_digit dv))⟩

/-- A canonical version string contains a capture equal to `code` iff
it is itself equal to `code`: `fetch`'s inner loop on the strings
produced by `extract_version_numbers` is exact string equality. -/
theorem nameHasCode_stringify (code : LC) (t : VTuple) :
    nameHasCode code (stringify_version_tuple t none) =
      (stringify_version_tuple t none == code) := by
  obtain ⟨g, hg⟩ := stringify_scan t
  simp [nameHasCode, hg]

/-! ## Extraction outputs are canonical strings -/

theorem extract_ok_mem_stringify {labels : List LC} {vs : List LC}
    (h : extract_version_numbers labels = .ok vs) :
    ∀ v ∈ vs, ∃ t, v = stringify_version_tuple t none := by
  unfold extract_version_numbers at h
  cases hmm : Run.mapM labelCandidates labels with
  | ok version_tuples =>
    rw [hmm] at h
    simp only [Run.bind] at h
    split at h
    · simp only [Run.ok.injEq] at h
      subst h
      intro v hv
      obtain ⟨x, _, hx⟩ := List.mem_map.mp hv
      exact ⟨_, hx.symm⟩
    · cases hss : similarStreaksRun version_tuples with
      | ok streaks =>
        rw [hss] at h
        simp only [Run.bind] at h
        split at h
        · simp at h
        · rename_i col _
          intro v hv
          obtain ⟨x, _, hfx⟩ := Run.mapM_ok_forall h v hv
          cases hxc : x[col]? with
          | none => rw [hxc] at hfx; simp at hfx
          | some t =>
            rw [hxc] at hfx
            simp only [Run.ok.injEq] at hfx
            exact ⟨t, hfx.symm⟩
      | err e => rw [hss] at h; simp [Run.bind] at h
      | panic => rw [hss] at h; simp [Run.bind] at h
  | err e => rw [hmm] at h; simp [Run.bind] at h
  | panic => rw [hmm] at h; simp [Run.bind] at h

/-! ## HashMap model lemmas -/

theorem mem_foldl_hmInsert :
    ∀ (pairs acc : List (LC × LC)) (e : LC × LC),
      e ∈ pairs.foldl hmInsert acc → e ∈ acc ∨ e ∈ pairs := by
  intro pairs
  induction pairs with
  | nil => intro acc e h; simp at h; exact Or.inl h
  | cons p ps ih =>
    intro acc e h
    simp only [List.foldl_cons] at h
    rcases ih (hmInsert acc p) e h with h' | h'
    · unfold hmInsert at h'
      rcases List.mem_append.mp h' with h'' | h''
      · exact Or.inl (List.mem_of_mem_filter h'')
      · simp at h''
        subst h''
        exact Or.inr (by simp)
    · exact Or.inr (by simp [h'])

theorem mem_dedupLast {pairs : List (LC × LC)} {e : LC × LC}
    (h : e ∈ dedupLast pairs) : e ∈ pairs := by
  rcases mem_foldl_hmInsert pairs [] e h with h' | h'
  · simp at h'
  · exact h'

theorem nodup_fst_foldl_hmInsert :
    ∀ (pairs acc : List (LC × LC)), (acc.map Prod.fst).Nodup →
      ((pairs.foldl hmInsert acc).map Prod.fst).Nodup := by
  intro pairs
  induction pairs with
  | nil => intro acc h; simpa using h
  | cons p ps ih =>
    intro acc h
    simp only [List.foldl_cons]
    apply ih
    unfold hmInsert
    rw [List.map_append, List.nodup_append]
    refine ⟨?_, by simp, ?_⟩
    · exact ((List.filter_sublist _).map Prod.fst).nodup h
    · intro a ha hb
      simp at hb
      subst hb
      obtain ⟨e, he, hefst⟩ := List.mem_map.mp ha
      have := List.of_mem_filter he
      simp at this
      exact this hefst

theorem nodup_fst_dedupLast (pairs : List (LC × LC)) :
    ((dedupLast pairs).map Prod.fst).Nodup :=
  nodup_fst_foldl_hmInsert pairs [] (by simp)

/-! ## `find?` under permutation with a unique satisfier -/

theorem find?_unique_eq {α : Type} {p : α → Bool} :
    ∀ (l : List α) (x : α), x ∈ l → p x = true → (∀ y ∈ l, p y = true → y = x) →
      l.find? p = some x := by
  intro l
  induction l with
  | nil => intro x hx; simp at hx
  | cons a as ih =>
    intro x hx hpx huniq
    by_cases hpa : p a = true
    · have : a = x := huniq a (by simp) hpa
      subst this
      simp [List.find?_cons, hpa]
    · rw [List.find?_cons]
      rw [Bool.not_eq_true] at hpa
      rw [hpa]
      have hxas : x ∈ as := by
        rcases List.mem_cons.mp hx with h | h
        · subst h; rw [hpx] at hpa; exact absurd hpa (by simp)
        · exact h
      exact ih x hxas hpx (fun y hy hpy => huniq y (by simp [hy]) hpy)

theorem find?_perm_unique {α : Type} {p : α → Bool} {l₁ l₂ : List α} (hperm : l₁.Perm l₂)
    (huniq : ∀ x ∈ l₁, ∀ y ∈ l₁, p x = true → p y = true → x = y) :
    l₁.find? p = l₂.find? p := by
  cases hfind : l₁.find? p with
  | none =>
    rw [eq_comm, List.find?_eq_none]
    intro y hy
    exact List.find?_eq_none.mp hfind y (hperm.mem_iff.mpr hy)
  | some x =>
    have hpx := List.find?_some hfind
    have hmem := List.mem_of_find?_eq_some hfind
    rw [eq_comm]
    exact find?_unique_eq l₂ x (hperm.mem_iff.mp hmem) hpx
      (fun y hy hpy => huniq y (hperm.mem_iff.mpr hy) x hmem hpy hpx)

/-- Entries whose names are canonical version strings: at most one can
satisfy `fetch`'s inner loop, so the `HashMap` iteration order cannot
influence the result. -/
theorem fetchWithOrder_perm {versions links : List LC} {order₁ order₂ : List (LC × LC)}
    (hcanon : ∀ v ∈ versions, ∃ t, v = stringify_version_tuple t none)
    (hp₁ : order₁.Perm (dedupLast (versions.zip links)))
    (hp₂ : order₂.Perm (dedupLast (versions.zip links))) (code : LC) :
    fetchWithOrder order₁ code = fetchWithOrder order₂ code := by
  have hcode : ∀ e ∈ dedupLast (versions.zip links), nameHasCode code e.1 = true → e.1 = code := by
    intro e he hmatch
    have hz := mem_dedupLast he
    have hv : e.1 ∈ versions := (List.of_mem_zip hz).1
    obtain ⟨t, ht⟩ := hcanon e.1 hv
    rw [ht] at hmatch ⊢
    rw [nameHasCode_stringify] at hmatch
    exact eq_of_beq hmatch
  have hnodup : ((dedupLast (versions.zip links)).map Prod.fst).Nodup := nodup_fst_dedupLast _
  have huniq : ∀ x ∈ dedupLast (versions.zip links), ∀ y ∈ dedupLast (versions.zip links),
      nameHasCode code x.1 = true → nameHasCode code y.1 = true → x = y := by
    intro x hx y hy hpx hpy
    have hfst : x.1 = y.1 := by rw [hcode x hx hpx, hcode y hy hpy]
    exact List.inj_on_of_nodup_map hnodup hx hy hfst
  unfold fetchWithOrder
  rw [find?_perm_unique (hp₁.trans hp₂.symm)
    (fun x hx y hy => huniq x (hp₁.mem_iff.mp hx) y (hp₁.mem_iff.mp hy))]

/-! ## Characterising `min_by` as first-argmin -/

theorem minByFold_spec :
    ∀ (l : List Nat) (bi bv i : Nat),
      ((minByFold (bi, bv) i l).2 ≤ bv ∧
        ∀ k, k < l.length → (minByFold (bi, bv) i l).2 ≤ l.getD k 0) ∧
      (minByFold (bi, bv) i l = (bi, bv) ∨
        ∃ k, k < l.length ∧ minByFold (bi, bv) i l = (i + k, l.getD k 0) ∧
          l.getD k 0 < bv ∧ ∀ k', k' < k → l.getD k 0 < l.getD k' 0) := by
  intro l
  induction l with
  | nil => intro bi bv i; simp [minByFold]
  | cons v vs ih =>
    intro bi bv i
    rw [minByFold]
    by_cases h : bv > v
    · rw [if_pos h]
      have IH := ih i v (i + 1)
      refine ⟨⟨le_trans IH.1.1 (le_of_lt h), ?_⟩, ?_⟩
      · intro k hk
        cases k with
        | zero => simpa using IH.1.1
        | succ k' =>
          simp only [List.getD_cons_succ]
          exact IH.1.2 k' (by simpa using hk)
      · rcases IH.2 with heq | ⟨k, hk, heq, hlt, hmin⟩
        · right
          exact ⟨0, by simp, by rw [heq]; simp, h, by omega⟩
        · right
          refine ⟨k + 1, by simpa using hk, by rw [heq]; simp; omega, lt_trans hlt h, ?_⟩
          intro k' hk'
          cases k' with
          | zero => simpa using hlt
          | succ k'' =>
            simp only [List.getD_cons_succ]
            exact hmin k'' (by omega)
    · rw [if_neg h]
      have hvb : bv ≤ v := by omega
      have IH := ih bi bv (i + 1)
      refine ⟨⟨IH.1.1, ?_⟩, ?_⟩
      · intro k hk
        cases k with
        | zero => simpa using le_trans IH.1.1 hvb
        | succ k' =>
          simp only [List.getD_cons_succ]
          exact IH.1.2 k' (by simpa using hk)
      · rcases IH.2 with heq | ⟨k, hk, heq, hlt, hmin⟩
        · exact Or.inl heq
        · right
          refine ⟨k + 1, by simp only [List.length_cons]; omega, by rw [heq]; simp; omega, hlt, ?_⟩
          intro k' hk'
          cases k' with
          | zero => simp only [List.getD_cons_succ, List.getD_cons_zero]; omega
          | succ k'' =>
            simp only [List.getD_cons_succ]
            exact hmin k'' (by omega)

/-- `min_by` picks the first index attaining the minimum score. -/
theorem minByIdx_firstMin {scores : List Nat} {col : Nat} (h : minByIdx scores = some col) :
    col < scores.length ∧ (∀ j, j < scores.length → scores.getD col 0 ≤ scores.getD j 0) ∧
      ∀ j, j < col → scores.getD col 0 < scores.getD j 0 := by
  cases scores with
  | nil => simp [minByIdx] at h
  | cons v vs =>
    simp only [minByIdx, Option.some.injEq] at h
    have spec := minByFold_spec vs 0 v 1
    rcases spec.2 with heq | ⟨k, hk, heq, hlt, hmin⟩
    · rw [heq] at h
      simp at h
      subst h
      refine ⟨by simp, ?_, by omega⟩
      intro j hj
      cases j with
      | zero => simp
      | succ j' =>
        rw [heq] at spec
        simpa using spec.1.2 j' (by simpa using hj)
    · rw [heq] at h
      simp at h
      subst h
      refine ⟨by simp only [List.length_cons]; omega, ?_, ?_⟩
      · intro j hj
        have hcol : ((v :: vs) : List Nat).getD (1 + k) 0 = vs.getD k 0 := by
          have : 1 + k = k + 1 := by omega
          rw [this]
          simp
        rw [hcol]
        cases j with
        | zero => simpa using le_of_lt hlt
        | succ j' =>
          rw [heq] at spec
          simpa using spec.1.2 j' (by simpa using hj)
      · intro j hj
        have hcol : ((v :: vs) : List Nat).getD (1 + k) 0 = vs.getD k 0 := by
          have : 1 + k = k + 1 := by omega
          rw [this]
          simp
        rw [hcol]
        cases j with
        | zero => simpa using hlt
        | succ j' =>
          simpa using hmin j' (by omega)

/-! ## The two scoring walks for C3 -/

/-- Modelled from the spec's wording for the C3 claim: walking the
labels in order, increment whenever column `i` is absent for that
label, or whenever its value equals the immediately preceding label's
column-`i` value.  (The first label has no predecessor and contributes
no increment.) -/
def claimColScoreGo (i : Nat) : List VTuple → List (List VTuple) → Nat
  | _, [] => 0
  | prevLabel, lab :: more =>
    (match lab[i]? with
     | none => 1
     | some v => if prevLabel[i]? = some v then 1 else 0) +
    claimColScoreGo i lab more

/-- Modelled from the spec's wording for the C3 claim (whole-column
score, walked from the first label). -/
def claimColScore (i : Nat) (tuples : List (List VTuple)) : Nat :=
  match tuples with
  | [] => 0
  | first :: rest => claimColScoreGo i first rest

/-- The amended walk: the comparison baseline is the most recent
*present* column-`i` value, not the immediately preceding label's. -/
def amendColScoreGo (i : Nat) : Option VTuple → List (List VTuple) → Nat
  | _, [] => 0
  | base, lab :: more =>
    (match lab[i]? with
     | none => 1
     | some v => if base = some v then 1 else 0) +
    amendColScoreGo i (match lab[i]? with | none => base | some v => some v) more

/-- Amended column score: baseline starts from the first label's
column-`i` entry. -/
def amendColScore (i : Nat) (tuples : List (List VTuple)) : Nat :=
  match tuples with
  | [] => 0
  | first :: rest => amendColScoreGo i first[i]? rest

theorem amendColScoreGo_eq_scoreColGo (i : Nat) :
    ∀ (rest : List (List VTuple)) (prev : VTuple),
      amendColScoreGo i (some prev) rest = scoreColGo i prev rest := by
  intro rest
  induction rest with
  | nil => intro prev; rfl
  | cons lab more ih =>
    intro prev
    rw [amendColScoreGo, scoreColGo]
    cases hl : lab[i]? with
    | none => simp [ih]
    | some v =>
      simp only [Option.some.injEq, ih]
      congr 1
      by_cases hv : v = prev
      · subst hv; simp
      · rw [if_neg hv, if_neg (fun hc => hv (by simpa using hc.symm))]

/-! ## `rustSplit` lemmas -/

theorem rustSplitAux_no_sep {sep : Char} :
    ∀ (s acc : LC), (∀ c ∈ s, c ≠ sep) → rustSplitAux sep acc s = [acc.reverse ++ s] := by
  intro s
  induction s with
  | nil => intro acc _; simp [rustSplitAux]
  | cons c cs ih =>
    intro acc hs
    rw [rustSplitAux, if_neg (hs c (by simp))]
    rw [ih (c :: acc) (fun x hx => hs x (by simp [hx]))]
    simp

theorem rustSplitAux_sep_append {sep : Char} :
    ∀ (s acc rest : LC), (∀ c ∈ s, c ≠ sep) →
      rustSplitAux sep acc (s ++ sep :: rest) = (acc.reverse ++ s) :: rustSplitAux sep [] rest := by
  intro s
  induction s with
  | nil => intro acc rest _; simp [rustSplitAux]
  | cons c cs ih =>
    intro acc rest hs
    rw [List.cons_append, rustSplitAux, if_neg (hs c (by simp))]
    rw [ih (c :: acc) rest (fun x hx => hs x (by simp [hx]))]
    simp

theorem rustSplit_word_at_star {name : LC} (hw : ∀ c ∈ name, isWordChar c = true) :
    rustSplit '@' (name ++ '@' :: '*' :: []) = [name, ['*']] := by
  have hno : ∀ c ∈ name, c ≠ '@' := by
    intro c hc heq
    subst heq
    have := hw _ hc
    simp [isWordChar] at this
  unfold rustSplit
  rw [rustSplitAux_sep_append name [] ('*' :: []) hno]
  simp [rustSplitAux]

/-! ## Concrete inputs used by the claims -/

def c1versions : List LC := ["6.1.9".toList, "6.1.9".toList, "6.2.0".toList]

def c1links : List LC := ["L0".toList, "L1".toList, "L2".toList]

def c3cex : List (List VTuple) := [[(5, 0, none, none)], [], [(5, 0, none, none)]]

def c4labels : List LC := ["1.0 7.0".toList, "1.0 8.0".toList, "1.0".toList]

def c4labelsShortFirst : List LC := ["1.0".toList, "2.0 3.0".toList]

def c5labels : List LC :=
  ["Plugin 6.1.9 (MC 1.12)".toList, "Plugin 6.1.11 (MC 1.12)".toList,
   "Plugin 6.2.0 (MC 1.12)".toList]

def c5versions : List LC := ["6.1.9".toList, "6.1.11".toList, "6.2.0".toList]

def c5links : List LC := ["L0".toList, "L1".toList, "L2".toList]

def c8labels : List LC := ["1.0.0".toList, "1.1.0".toList, "2.0.0".toList]

def c10labels : List LC :=
  ["WorldEdit 6.1.9 for MC 1.12".toList, "WorldEdit 6.1.8 for MC 1.11".toList]

def c10versions : List LC := ["6.1.9".toList, "6.1.8".toList]

def c10links : List LC := ["L0".toList, "L1".toList]

/-! ## Claim theorems -/

/-- C1 counterexample: with versions `["6.1.9","6.1.9","6.2.0"]` and
distinct links, the `HashMap` built by `fetch` keeps only the *last*
link for the duplicated key `"6.1.9"`, so the resolved link is the one
at index 1, not the index-0 link the claim requires. -/
theorem c1_exact_first_match_counterexample :
    fetchWithOrder (dedupLast (c1versions.zip c1links)) ("6.1.9".toList) = some ("L1".toList) ∧
      ("L1".toList : LC) ≠ ("L0".toList : LC) := by
  constructor
  · decide
  · decide

/-- C1 amended: `fetch` inserts the `(version, link)` pairs into a
`HashMap`, so a duplicated version keeps the link of its last
occurrence and the map is scanned in arbitrary order.  With versions
`["6.1.9","6.1.9","6.2.0"]` the request `"6.1.9"` returns the index-1
link under *every* iteration order, and when no entry's captures equal
the requested code the result is `None`. -/
theorem c1_exact_dedup_last_wins :
    (∀ order : List (LC × LC), order.Perm (dedupLast (c1versions.zip c1links)) →
      fetchWithOrder order ("6.1.9".toList) = some ("L1".toList)) ∧
    (∀ (versions links : List LC) (code : LC) (order : List (LC × LC)),
      order.Perm (dedupLast (versions.zip links)) →
      (∀ v ∈ versions, nameHasCode code v = false) →
      fetchWithOrder order code = none) := by
  constructor
  · intro order hperm
    have hcanon : ∀ v ∈ c1versions, ∃ t, v = stringify_version_tuple t none := by
      intro v hv
      simp only [c1versions, List.mem_cons, List.not_mem_nil, or_false] at hv
      rcases hv with rfl | rfl | rfl
      · exact ⟨(6, 1, some 9, none), by decide⟩
      · exact ⟨(6, 1, some 9, none), by decide⟩
      · exact ⟨(6, 2, some 0, none), by decide⟩
    rw [fetchWithOrder_perm hcanon hperm (List.Perm.refl _)]
    decide
  · intro versions links code order hperm hnone
    have hfind : order.find? (fun e => nameHasCode code e.1) = none := by
      rw [List.find?_eq_none]
      intro e he
      have hze := mem_dedupLast (hperm.mem_iff.mp he)
      have hv : e.1 ∈ versions := (List.of_mem_zip hze).1
      simp [hnone e.1 hv]
    unfold fetchWithOrder
    rw [hfind]
    rfl

/-- C1 witness: the amended theorem applied at the canonical map order,
and at a request matching no entry. -/
theorem c1_witness :
    fetchWithOrder (dedupLast (c1versions.zip c1links)) ("6.1.9".toList) = some ("L1".toList) ∧
      fetchWithOrder (dedupLast (c1versions.zip c1links)) ("9.9.9".toList) = none :=
  ⟨c1_exact_dedup_last_wins.1 _ (List.Perm.refl _),
   c1_exact_dedup_last_wins.2 c1versions c1links _ _ (List.Perm.refl _) (by decide)⟩

/-- C2 counterexample: on empty version/link sequences
`find_newest_version` panics (`first().unwrap()` on `None`) instead of
returning `None` as the claim requires. -/
theorem c2_empty_counterexample :
    find_newest_version ([] : List LC) ([] : List LC) = Run.panic := rfl

/-- C2 amended: on non-empty sequences `find_newest_version` returns
the index-0 pair with no filtering by version value; on an empty
versions or links sequence the `unwrap` panics (it does not return
`None`). -/
theorem c2_newest_head_or_panic :
    (∀ (v : LC) (vs : List LC) (l : LC) (ls : List LC),
      find_newest_version (v :: vs) (l :: ls) = .ok (v, l)) ∧
    (∀ ls : List LC, find_newest_version [] ls = .panic) ∧
    (∀ (v : LC) (vs : List LC), find_newest_version (v :: vs) [] = .panic) :=
  ⟨fun _ _ _ _ => rfl, fun _ => rfl, fun _ _ => rfl⟩

/-- C4: on labels `["1.0 7.0","1.0 8.0","1.0"]` the heuristic selects
column 1 (score 1 versus 2), and the final `x[col]` indexes past the
third label's single candidate: the code panics with an out-of-range
index instead of returning `ExtractionError::InconsistentColumns`
(which does not even exist in the code's `ErrorKind`).  The scoring
loop itself also panics when the first label has fewer candidates than
the maximum, as on `["1.0","2.0 3.0"]`. -/
theorem c4_out_of_range_panic :
    extract_version_numbers c4labels = Run.panic ∧
      extract_version_numbers c4labelsShortFirst = Run.panic := by
  constructor
  · decide
  · decide

/-- C6 counterexample: `parse("a@1.2.3.4.5")` is *accepted* — the
version half is checked with an unanchored `is_match`, which finds the
prefix `1.2.3.4` and ignores the trailing `.5`. -/
theorem c6_five_groups_accepted_counterexample :
    parse_package_specifier ("a@1.2.3.4.5".toList) =
      .ok ("a".toList) (some ("1.2.3.4.5".toList)) := by
  decide

/-- C6 amended: `parse("a@@1.2")` (two separators) and
`parse("1 2@1.2")` (invalid name characters) are rejected as
malformed, but `parse("a@1.2.3.4.5")` is accepted because the version
regex is unanchored. -/
theorem c6_malformed_rejection :
    parse_package_specifier ("a@@1.2".toList) = .invalid ∧
      parse_package_specifier ("1 2@1.2".toList) = .invalid ∧
      parse_package_specifier ("a@1.2.3.4.5".toList) =
        .ok ("a".toList) (some ("1.2.3.4.5".toList)) := by
  refine ⟨by decide, by decide, by decide⟩

/-- C7 counterexample: `parse("a@*")` is rejected as malformed —
`VERSION_CODE_REGEX` demands a digit run followed by a dot, which a
bare `*` does not contain, so the documented `Newest` spelling
`name@*` never parses. -/
theorem c7_star_counterexample :
    parse_package_specifier ("a@*".toList) = .invalid := by
  decide

/-- C3 counterexample: on per-label candidate lists
`[[(5,0)], [], [(5,0)]]` the code computes the column-0 score 2 (the
third label's value is compared against the *last present* value 5 and
counted as a repeat), while the claim's walk — comparison against the
immediately preceding label's column-0 value, which is absent for the
second label — yields 1. -/
theorem c3_immediate_predecessor_counterexample :
    similarStreaksRun c3cex = Run.ok [2] ∧
      (List.range (max_len c3cex)).map (fun i => claimColScore i c3cex) = [1] := by
  refine ⟨by decide, by decide⟩

/-- C3 amended: the scoring walk increments when column `i` is absent
or when its value equals the column-`i` value of the most recent
previous label *having* column `i` (the first label seeds the baseline
and is itself unscored, and must have every scored column, else the
code panics); the column with the minimum score is then selected,
ties broken by the lowest column index. -/
theorem c3_scoring_last_present :
    (∀ (first : List VTuple) (rest : List (List VTuple)),
      (∀ i, i < max_len (first :: rest) → i < first.length) →
      similarStreaksRun (first :: rest) =
        .ok ((List.range (max_len (first :: rest))).map
          (fun i => amendColScore i (first :: rest)))) ∧
    (∀ (scores : List Nat) (col : Nat), minByIdx scores = some col →
      col < scores.length ∧ (∀ j, j < scores.length → scores.getD col 0 ≤ scores.getD j 0) ∧
        ∀ j, j < col → scores.getD col 0 < scores.getD j 0) := by
  constructor
  · intro first rest hfull
    unfold similarStreaksRun
    apply Run.mapM_ok_of_forall
    intro i hi
    have hi' : i < first.length := hfull i (List.mem_range.mp hi)
    rw [List.getElem?_eq_getElem hi']
    show Run.ok (scoreColGo i first[i] rest) = Run.ok (amendColScore i (first :: rest))
    rw [amendColScore, List.getElem?_eq_getElem hi', amendColScoreGo_eq_scoreColGo]
  · intro scores col h
    exact minByIdx_firstMin h

/-- C3 witness: the amended scoring applied to concrete two-column
candidate lists, and the selection property at the concrete score
vector `[2,1]`. -/
theorem c3_witness :
    similarStreaksRun [[(6, 1, some 9, none), (1, 12, none, none)],
        [(6, 1, some 8, none), (1, 12, none, none)]] = .ok [0, 1] ∧
      minByIdx [2, 1] = some 1 ∧ (1 : Nat) < 2 := by
  have h1 := c3_scoring_last_present.1 [(6, 1, some 9, none), (1, 12, none, none)]
    [[(6, 1, some 8, none), (1, 12, none, none)]] (by decide)
  have h2 := c3_scoring_last_present.2 [2, 1] 1 (by decide)
  refine ⟨h1.trans (by decide), by decide, ?_⟩
  have h3 := h2.2.2 0 (by omega)
  simp only [List.getD_cons_zero, List.getD_cons_succ] at h3
  exact h3

/-- C5: the wildcard install path is documented in `backend.rs` but
never implemented — `parse_package_specifier` accepts
`WorldEdit@6.1.*` and hands the literal string `6.1.*` to `fetch`,
whose captures over the canonical extracted versions
`["6.1.9","6.1.11","6.2.0"]` are the canonical strings themselves, so
no entry ever equals `6.1.*` and `pkg_install` returns no package
instead of the greatest-patch `6.1.11` entry. -/
theorem c5_wildcard_unresolvable :
    parse_package_specifier ("WorldEdit@6.1.*".toList) =
      .ok ("WorldEdit".toList) (some ("6.1.*".toList)) ∧
      extract_version_numbers c5labels = .ok c5versions ∧
      fetchWithOrder (dedupLast (c5versions.zip c5links)) ("6.1.*".toList) = none := by
  refine ⟨by decide, by decide, by decide⟩

/-- C7 amended: for every name of word characters, the bare name
parses with no version (the `Newest` path of `pkg_install`), but
`name@*` is rejected as malformed: the version half is validated
against `VERSION_CODE_REGEX`, which requires a digit group followed by
a dot and never matches a bare `*`. -/
theorem c7_star_rejected_name_newest :
    ∀ name : LC, name ≠ [] → (∀ c ∈ name, isWordChar c = true) →
      parse_package_specifier (name ++ '@' :: '*' :: []) = .invalid ∧
        parse_package_specifier name = .ok name none := by
  intro name hne hw
  have hnoAt : ∀ c ∈ name, ¬(c == '@') = true := by
    intro c hc heq
    have hcw := hw c hc
    rw [beq_iff_eq] at heq
    subst heq
    simp [isWordChar] at hcw
  have hie : name.isEmpty = false := by
    cases name with
    | nil => exact absurd rfl hne
    | cons c cs => rfl
  have hnm : nameReMatch name = true := by
    rw [nameReMatch]
    simp only [Bool.and_eq_true, Bool.not_eq_true', hie, List.all_eq_true]
    exact ⟨trivial, hw⟩
  have hanyf : ¬(name.any (fun c => c == '@') = true) := by
    intro hany
    obtain ⟨c, hc, hp⟩ := List.any_eq_true.mp hany
    exact hnoAt c hc hp
  constructor
  · unfold parse_package_specifier
    rw [if_pos (by rw [List.any_append]; simp)]
    rw [rustSplit_word_at_star hw]
    show (if (!nameReMatch name) = true then SpecParse.invalid
      else if (!versionReIsMatch ['*']) = true then SpecParse.invalid
      else SpecParse.ok name (some ['*'])) = SpecParse.invalid
    rw [hnm]
    rw [if_neg (by decide)]
    rw [if_pos (by decide)]
  · unfold parse_package_specifier
    rw [if_neg hanyf]
    rw [if_pos hnm]

/-- C7 witness: the amended theorem applied at the name `a`. -/
theorem c7_witness :
    parse_package_specifier ("a@*".toList) = .invalid ∧
      parse_package_specifier ("a".toList) = .ok ("a".toList) none :=
  c7_star_rejected_name_newest ("a".toList) (by decide) (by decide)

/-- C8: when every label yields exactly one candidate tuple,
extraction succeeds and returns exactly those candidates (stringified)
in input order; and whenever extraction succeeds the output length
equals the input length. -/
theorem c8_trivial_extraction :
    (∀ (labels : List LC) (tss : List (List VTuple)),
      Run.mapM labelCandidates labels = .ok tss →
      (∀ ts ∈ tss, ts.length = 1) →
      extract_version_numbers labels =
        .ok (tss.map (fun ts => stringify_version_tuple (ts.headD (0, 0, none, none)) none))) ∧
    (∀ (labels : List LC) (out : List LC),
      extract_version_numbers labels = .ok out → out.length = labels.length) := by
  constructor
  · intro labels tss hmm hone
    unfold extract_version_numbers
    rw [hmm]
    show (if tss.all (fun x => x.length == 1) then _ else _) = _
    rw [if_pos]
    exact List.all_eq_true.mpr (fun ts hts => by simp [hone ts hts])
  · intro labels out h
    unfold extract_version_numbers at h
    cases hmm : Run.mapM labelCandidates labels with
    | ok tss =>
      rw [hmm] at h
      simp only [Run.bind] at h
      have hlen : tss.length = labels.length := Run.mapM_ok_length hmm
      split at h
      · simp only [Run.ok.injEq] at h
        subst h
        simp [hlen]
      · cases hss : similarStreaksRun tss with
        | ok streaks =>
          rw [hss] at h
          simp only [Run.bind] at h
          split at h
          · simp at h
          · rw [Run.mapM_ok_length h, hlen]
        | err e => rw [hss] at h; simp [Run.bind] at h
        | panic => rw [hss] at h; simp [Run.bind] at h
    | err e => rw [hmm] at h; simp [Run.bind] at h
    | panic => rw [hmm] at h; simp [Run.bind] at h

/-- C8 witness: both parts applied at the labels
`["1.0.0","1.1.0","2.0.0"]`, which extract to themselves. -/
theorem c8_witness :
    extract_version_numbers c8labels = .ok c8labels ∧ c8labels.length = 3 := by
  have h1 := c8_trivial_extraction.1 c8labels
    [[(1, 0, some 0, none)], [(1, 1, some 0, none)], [(2, 0, some 0, none)]]
    (by decide) (by decide)
  have heq : extract_version_numbers c8labels = .ok c8labels := h1.trans (by decide)
  have h2 := c8_trivial_extraction.2 c8labels c8labels heq
  exact ⟨heq, by decide⟩

/-- C9: extraction is a pure function of its input, and the only
nondeterminism in resolution — the `HashMap` iteration order in
`fetch` — cannot affect the result: the canonical version strings
produced by extraction allow at most one match for any requested code,
so every two iteration orders of the map yield the same answer. -/
theorem c9_resolution_deterministic :
    ∀ (labels links : List LC) (code : LC) (vs : List LC) (order₁ order₂ : List (LC × LC)),
      extract_version_numbers labels = .ok vs →
      order₁.Perm (dedupLast (vs.zip links)) →
      order₂.Perm (dedupLast (vs.zip links)) →
      fetchWithOrder order₁ code = fetchWithOrder order₂ code := by
  intro labels links code vs o1 o2 hex hp1 hp2
  exact fetchWithOrder_perm (extract_ok_mem_stringify hex) hp1 hp2 code

/-- C9 witness: the two iteration orders of the concrete map agree. -/
theorem c9_witness :
    fetchWithOrder [("6.1.9".toList, "L0".toList), ("6.1.8".toList, "L1".toList)]
        ("6.1.9".toList) =
      fetchWithOrder [("6.1.8".toList, "L1".toList), ("6.1.9".toList, "L0".toList)]
        ("6.1.9".toList) :=
  c9_resolution_deterministic c10labels c10links ("6.1.9".toList) c10versions _ _
    (by decide) (by decide) (by decide)

/-- C10 counterexample: on the very input the claim offers — labels
`["WorldEdit 6.1.9 for MC 1.12", "WorldEdit 6.1.8 for MC 1.11"]` and
request `1.12` — resolution returns `None`, not the first release's
link: `fetch` receives the canonical extracted versions
`["6.1.9","6.1.8"]` from `enumerate_versions`, not the raw labels. -/
theorem c10_raw_label_counterexample :
    extract_version_numbers c10labels = .ok c10versions ∧
      fetchWithOrder (dedupLast (c10versions.zip c10links)) ("1.12".toList) = none := by
  refine ⟨by decide, by decide⟩

/-- C10 amended: `fetch` compares the requested code against the
captures of the canonical extracted version strings (the lists
returned by `enumerate_versions` are post-extraction), and a canonical
string's only capture is the whole string, so matching is exact
equality with the canonical version; a request equal only to an
auxiliary number embedded in a raw label returns `None`. -/
theorem c10_match_against_canonical :
    (∀ (t : VTuple) (code : LC),
      nameHasCode code (stringify_version_tuple t none) = true ↔
        code = stringify_version_tuple t none) ∧
    (∀ order : List (LC × LC), order.Perm (dedupLast (c10versions.zip c10links)) →
      fetchWithOrder order ("1.12".toList) = none) := by
  constructor
  · intro t code
    rw [nameHasCode_stringify]
    constructor
    · intro h
      exact (eq_of_beq h).symm
    · intro h
      subst h
      simp
  · intro order hperm
    have hcanon : ∀ v ∈ c10versions, ∃ t, v = stringify_version_tuple t none := by
      intro v hv
      simp only [c10versions, List.mem_cons, List.not_mem_nil, or_false] at hv
      rcases hv with rfl | rfl
      · exact ⟨(6, 1, some 9, none), by decide⟩
      · exact ⟨(6, 1, some 8, none), by decide⟩
    rw [fetchWithOrder_perm hcanon hperm (List.Perm.refl _)]
    decide

/-- C10 witness: the amended theorem applied at the canonical map
order. -/
theorem c10_witness :
    fetchWithOrder (dedupLast (c10versions.zip c10links)) ("1.12".toList) = none :=
  c10_match_against_canonical.2 _ (List.Perm.refl _)

end Dropper
